import Mathlib

set_option maxHeartbeats 1000000
set_option maxRecDepth 8192

/-!
Shallow embedding of the step scheduler of this repository (the menu
generation API route): the step data model, the conflict classifier
(`canRunInParallel` / `extractIngredients`), the dependency resolver
(`optimizeSteps` / `calculateStartTime`), the repair engine
(`validateAndFixSteps` with `detectParallelConflicts` / `detectTimeGaps`)
and the summarizer (`calculateOptimizedTime`).

Modelling conventions:
- JS numbers holding integral minute counts and step ids are modelled as
  `Int` (the code only adds, subtracts and compares them); `x || 0` on a
  number is the identity in that range and is dropped.
- JS object references into the mutable steps array are modelled as
  positional indices into a `List Step`; in-place mutation of a step's
  `startTime` becomes a functional update at that index (or at the first
  index with a given id, matching `Array.prototype.find`).
- The recursive `calculateStartTime` is modelled with an explicit
  recursion-depth fuel (`none` = out of fuel); a lemma shows the fuel that
  `optimizeSteps` passes is always sufficient, so the embedded
  `optimizeSteps` is total and agrees with the source.
- `String.prototype.includes` is substring containment on the character
  lists; `toLowerCase` is modelled per character.
-/

inductive StepCategory where
  | prep
  | cook
  | serve
  | wait
deriving DecidableEq, Repr

structure Step where
  id : Int
  title : String
  description : String
  duration : Int
  dependencies : List Int
  canParallel : Bool
  category : StepCategory
  startTime : Int
  dishLabel : Option String
deriving DecidableEq, Repr

def defaultStep : Step :=
  { id := 0, title := "", description := "", duration := 0, dependencies := [],
    canParallel := false, category := .prep, startTime := 0, dishLabel := none }

/-- Substring containment on character lists (needle occurs contiguously). -/
def listContainsSub : List Char → List Char → Bool
  | [], needle => needle.isEmpty
  | h :: t, needle => needle.isPrefixOf (h :: t) || listContainsSub t needle

/-- `haystack.includes(needle)` of JS, as substring containment. -/
def jsIncludes (haystack needle : String) : Bool :=
  listContainsSub haystack.data needle.data

/-- `toLowerCase`, modelled per character (identity on the Japanese text used). -/
def jsToLower (s : String) : String :=
  s.map Char.toLower

/-- The fixed ingredient vocabulary of `extractIngredients`. -/
def commonIngredients : List String :=
  ["鶏肉", "豚肉", "牛肉", "魚", "玉ねぎ", "にんじん", "じゃがいも", "キャベツ", "白菜",
   "トマト", "きゅうり", "なす", "ピーマン", "大根", "かぼちゃ", "ブロッコリー",
   "卵", "豆腐", "納豆", "味噌", "醤油", "砂糖", "塩", "胡椒", "油", "バター",
   "米", "パン", "麺", "パスタ", "うどん", "そば", "ラーメン"]

/-- `extractIngredients`: keywords of the fixed vocabulary occurring in the
description, in vocabulary order (the JS loop pushes in that order). -/
def extractIngredients (description : String) : List String :=
  commonIngredients.filter (fun ingredient => jsIncludes description ingredient)

/-- JS truthiness of the optional `dishLabel` (absent or empty string is falsy). -/
def dishTruthy : Option String → Bool
  | none => false
  | some d => d != ""

/-- The fixed equipment-conflict groups of `canRunInParallel`. -/
def cookingConflicts : List (List String) :=
  [["フライパン", "炒める", "焼く"],
   ["鍋", "煮る", "茹でる"],
   ["オーブン", "焼く", "ロースト"],
   ["電子レンジ", "温める", "解凍"]]

/-- The conflict classifier `canRunInParallel(step1, step2)` of the source. -/
def canRunInParallel (step1 step2 : Step) : Bool :=
  if !step1.canParallel || !step2.canParallel then
    false
  else if dishTruthy step1.dishLabel && dishTruthy step2.dishLabel
      && (step1.dishLabel != step2.dishLabel) then
    true
  else if step1.dishLabel == step2.dishLabel then
    let ingredients1 := extractIngredients step1.description
    let ingredients2 := extractIngredients step2.description
    if ingredients1.any (fun ing => ingredients2.contains ing) then
      false
    else
      let cookingActions1 := jsToLower step1.description
      let cookingActions2 := jsToLower step2.description
      if cookingConflicts.any (fun conflict =>
          conflict.any (fun action => jsIncludes cookingActions1 action)
          && conflict.any (fun action => jsIncludes cookingActions2 action)) then
        false
      else
        true
  else
    true

/-- `Math.max(...list)` for the nonempty lists the source applies it to. -/
def maxList : List Int → Int
  | [] => 0
  | x :: xs => xs.foldl max x

/-- The step object at array position `i` (JS steps array indexing). -/
def stepAt (steps : List Step) (i : Nat) : Step :=
  steps.getD i defaultStep

/-- Mutating `startTime` of the object at position `i`. -/
def setStartAt (steps : List Step) (i : Nat) (t : Int) : List Step :=
  steps.set i { stepAt steps i with startTime := t }

/-- `steps.find(s => s.id === stepId)`. -/
def findById (steps : List Step) (stepId : Int) : Option Step :=
  steps.find? (fun s => s.id == stepId)

/-- Mutating `startTime` of the first step whose id matches (the object
returned by `find`). -/
def setFirstStart : List Step → Int → Int → List Step
  | [], _, _ => []
  | s :: rest, stepId, t =>
    if s.id == stepId then { s with startTime := t } :: rest
    else s :: setFirstStart rest stepId t

/-- The mutable closure state of `optimizeSteps`: the steps array and the
`calculated` id set. -/
structure SchedState where
  steps : List Step
  calculated : List Int
deriving DecidableEq, Repr

/-- The sequential `dependencies.map(depId => ...)` loop inside
`calculateStartTime`: each dependency is resolved by the recursive call `f`,
its duration looked up in the current array, and the end time collected. -/
def calcDepEnds (f : SchedState → Int → Option (Int × SchedState)) :
    SchedState → List Int → Option (List Int × SchedState)
  | st, [] => some ([], st)
  | st, depId :: rest =>
    match f st depId with
    | none => none
    | some (v, st1) =>
      let depDuration :=
        match findById st1.steps depId with
        | some d => d.duration
        | none => 0
      match calcDepEnds f st1 rest with
      | none => none
      | some (vs, st2) => some ((v + depDuration) :: vs, st2)

/-- `calculateStartTime(stepId)` with explicit recursion-depth fuel.
Structure of the source: memo/not-found fast paths, mark calculated,
resolve dependency end times recursively, then the parallel-candidate
raise, then write the computed `startTime` into the array. -/
def calculateStartTime : Nat → SchedState → Int → Option (Int × SchedState)
  | 0 => fun _ _ => none
  | fuel + 1 => fun st stepId =>
    match findById st.steps stepId with
    | none => some (0, st)
    | some step =>
      if st.calculated.contains stepId then
        some (step.startTime, st)
      else
        let st1 : SchedState := ⟨st.steps, stepId :: st.calculated⟩
        match calcDepEnds (calculateStartTime fuel) st1 step.dependencies with
        | none => none
        | some (ends, st2) =>
          let depPart : Int := if step.dependencies.isEmpty then 0 else maxList ends
          let cands := st2.steps.filter
            (fun s => s.id != stepId && canRunInParallel step s)
          let startTime :=
            if cands.isEmpty then depPart
            else max depPart (maxList (cands.map (fun s => s.startTime)))
          some (startTime, ⟨setFirstStart st2.steps stepId startTime, st2.calculated⟩)

/-- `optimizeSteps`: empty guard, then `forEach(step => calculateStartTime(step.id))`
threading the shared mutable state.  The fuel `steps.length + 1` is proved
sufficient below (`calculateStartTime_isSome_of_fuel`), so the `getD`
default is never taken. -/
def optimizeSteps (steps : List Step) : List Step :=
  if steps.isEmpty then steps
  else
    (steps.foldl
      (fun st s => ((calculateStartTime (steps.length + 1) st s.id).getD (0, st)).2)
      ⟨steps, []⟩).steps

/-- `calculateOptimizedTime`: 30 for an empty step set, else the maximum
step end time. -/
def calculateOptimizedTime (steps : List Step) : Int :=
  match steps with
  | [] => 30
  | s :: rest => maxList ((s :: rest).map (fun t => t.startTime + t.duration))

/-- `detectStepOverlap`: the half-open time intervals intersect. -/
def detectStepOverlap (step1 step2 : Step) : Bool :=
  !(decide (step1.startTime + step1.duration ≤ step2.startTime)
    || decide (step2.startTime + step2.duration ≤ step1.startTime))

/-- The index pairs `(i, j)`, `i < j`, collected by the double loop of
`detectParallelConflicts`: both steps non-parallelizable and overlapping.
Indices stand for the JS object references held by the conflict records. -/
def conflictPairs (steps : List Step) : List (Nat × Nat) :=
  (List.range steps.length).flatMap (fun i =>
    ((List.range steps.length).filter (fun j =>
      decide (i < j)
      && !(stepAt steps i).canParallel
      && !(stepAt steps j).canParallel
      && detectStepOverlap (stepAt steps i) (stepAt steps j))).map (fun j => (i, j)))

/-- `detectParallelConflicts` as in the source signature: the conflicting
step pairs themselves. -/
def detectParallelConflicts (steps : List Step) : List (Step × Step) :=
  (conflictPairs steps).map (fun ij => (stepAt steps ij.1, stepAt steps ij.2))

/-- Resolving one conflict record: the later step (ties go to the second)
is moved to the end time of the earlier one. -/
def fixOneConflict (steps : List Step) (ij : Nat × Nat) : List Step :=
  let s1 := stepAt steps ij.1
  let s2 := stepAt steps ij.2
  let laterIdx := if s2.startTime < s1.startTime then ij.1 else ij.2
  let earlierIdx := if s2.startTime < s1.startTime then ij.2 else ij.1
  let e := stepAt steps earlierIdx
  setStartAt steps laterIdx (e.startTime + e.duration)

/-- The `for (const conflict of conflicts)` loop (records computed before
the loop, mutations visible to later iterations). -/
def fixConflicts (steps : List Step) : List (Nat × Nat) → List Step
  | [] => steps
  | ij :: rest => fixConflicts (fixOneConflict steps ij) rest

/-- Stable insertion into a list sorted ascending by `key` (placed before
equal keys arriving later, as JS stable sort). -/
def insertByKey {α : Type} (key : α → Int) (x : α) : List α → List α
  | [] => [x]
  | y :: ys => if key x ≤ key y then x :: y :: ys else y :: insertByKey key x ys

/-- Stable sort ascending by `key`, modelling `[...xs].sort((a, b) => key(a) - key(b))`. -/
def sortByKey {α : Type} (key : α → Int) : List α → List α
  | [] => []
  | x :: xs => insertByKey key x (sortByKey key xs)

/-- The gaps between consecutive steps of the sorted copy. -/
def betweenGaps : List Step → List (Int × Int)
  | a :: b :: rest =>
    (if a.startTime + a.duration < b.startTime
     then [(a.startTime + a.duration, b.startTime)] else [])
      ++ betweenGaps (b :: rest)
  | _ => []

/-- `detectTimeGaps`: the pre-first-step gap, then the inter-step gaps of
the copy sorted by `startTime`. -/
def detectTimeGaps (steps : List Step) : List (Int × Int) :=
  match sortByKey (fun s => s.startTime) steps with
  | [] => []
  | s0 :: rest =>
    (if 0 < s0.startTime then [((0 : Int), s0.startTime)] else [])
      ++ betweenGaps (s0 :: rest)

/-- Closing one gap: every step starting at or after the gap end is shifted
back by the gap length; the flag records whether any step moved. -/
def applyGap (steps : List Step) (g : Int × Int) : List Step × Bool :=
  ((steps.map (fun s =>
      if g.2 ≤ s.startTime then { s with startTime := s.startTime - (g.2 - g.1) } else s)),
   steps.any (fun s => decide (g.2 ≤ s.startTime)))

/-- The `for (const gap of gaps)` loop (gap list computed once, before the loop). -/
def applyGaps (steps : List Step) : List (Int × Int) → List Step × Bool
  | [] => (steps, false)
  | g :: gs =>
    let p := applyGap steps g
    let q := applyGaps p.1 gs
    (q.1, p.2 || q.2)

/-- The dependency end time used by the re-validation sub-step: a dangling
id contributes 0. -/
def depEndTime (steps : List Step) (depId : Int) : Int :=
  match findById steps depId with
  | some d => d.startTime + d.duration
  | none => 0

/-- Re-validating the step at position `i`: push it to the maximum
dependency end time when violated. -/
def fixDepsOne (steps : List Step) (i : Nat) : List Step × Bool :=
  let s := stepAt steps i
  if s.dependencies.isEmpty then (steps, false)
  else
    let required := maxList (s.dependencies.map (depEndTime steps))
    if s.startTime < required then (setStartAt steps i required, true)
    else (steps, false)

/-- The `for (const step of sortedSteps)` loop of sub-step 3 (iteration
order fixed up front, mutations visible to later iterations). -/
def fixDeps (steps : List Step) : List Nat → List Step × Bool
  | [] => (steps, false)
  | i :: rest =>
    let p := fixDepsOne steps i
    let q := fixDeps p.1 rest
    (q.1, p.2 || q.2)

/-- The positions of the steps in the order of the sorted reference copy
`[...fixedSteps].sort(...)` taken by sub-step 3. -/
def sortedIdx (steps : List Step) : List Nat :=
  sortByKey (fun i => (stepAt steps i).startTime) (List.range steps.length)

/-- One pass of the `while` loop of `validateAndFixSteps`: conflict
resolution, gap compaction, dependency re-validation, with the shared
`hasChanges` flag. -/
def validatePass (steps : List Step) : List Step × Bool :=
  let cps := conflictPairs steps
  let s1 := fixConflicts steps cps
  let p2 := applyGaps s1 (detectTimeGaps s1)
  let p3 := fixDeps p2.1 (sortedIdx p2.1)
  (p3.1, !cps.isEmpty || p2.2 || p3.2)

/-- The bounded `while (hasChanges && iterationCount < maxIterations)` loop;
the Bool records whether a no-change pass occurred before the budget ran
out (convergence). -/
def validateLoop : Nat → List Step → List Step × Bool
  | 0, steps => (steps, false)
  | n + 1, steps =>
    let p := validatePass steps
    if p.2 then validateLoop n p.1 else (p.1, true)

/-- `validateAndFixSteps`: empty guard, then at most 10 passes. -/
def validateAndFixSteps (steps : List Step) : List Step :=
  if steps.isEmpty then steps else (validateLoop 10 steps).1

/-- The scheduling pipeline applied to `recipe.steps` by the route handler:
`optimizeSteps` then `validateAndFixSteps`. -/
def scheduleSteps (steps : List Step) : List Step :=
  validateAndFixSteps (optimizeSteps steps)

/-- The top-level `requiredFields` list checked by the route handler before
scheduling (recipe-level fields only). -/
def requiredFields : List String :=
  ["title", "ingredients", "instructions", "servings", "totalTime"]

/-- A step with its computed-output field cleared: the projection to
everything the scheduler is not supposed to change. -/
def eraseStart (s : Step) : Step :=
  { s with startTime := 0 }

/-- No two distinct-id steps of the list are classified parallel-compatible. -/
def NoParById (steps : List Step) : Prop :=
  ∀ a ∈ steps, ∀ b ∈ steps, a.id ≠ b.id → canRunInParallel a b = false

instance (steps : List Step) : Decidable (NoParById steps) :=
  inferInstanceAs (Decidable (∀ a ∈ steps, ∀ b ∈ steps,
    a.id ≠ b.id → canRunInParallel a b = false))

/-- The ids of the steps array. -/
def idsOf (steps : List Step) : List Int :=
  steps.map (fun s => s.id)

/-- How many array slots hold an id not yet in `calculated`: the
termination measure of `calculateStartTime`. -/
def uncalcCount (st : SchedState) : Nat :=
  ((idsOf st.steps).filter (fun i => !st.calculated.contains i)).length

/-- `calculateStartTime` runs out of every fuel on this state and id:
the formal statement of nontermination for the fuel embedding. -/
def calcDiverges (st : SchedState) (stepId : Int) : Prop :=
  ∀ fuel, calculateStartTime fuel st stepId = none

/-- The state relation preserved by the resolver: step ids, order and all
fields other than `startTime` are untouched, and the `calculated` set only
grows. -/
def ShapeRel (st st' : SchedState) : Prop :=
  st'.steps.map eraseStart = st.steps.map eraseStart ∧
  (∀ x, st.calculated.contains x = true → st'.calculated.contains x = true)

/-- The invariant carried through the resolver on lists with distinct ids
and no parallel-compatible pair: already-calculated dependency-free steps
hold start time 0 (relative to a fixed base list). -/
def ZeroedInv (base : List Step) (st : SchedState) : Prop :=
  st.steps.map eraseStart = base.map eraseStart ∧
  (∀ s ∈ st.steps, st.calculated.contains s.id = true →
    s.dependencies = [] → s.startTime = 0)

/-- Step constructor for the concrete inputs below (title left empty; the
scheduler never reads it). -/
def mkStep (id : Int) (dur : Int) (deps : List Int) (canP : Bool) (start : Int)
    (desc : String) (dish : Option String) : Step :=
  { id := id, title := "", description := desc, duration := dur, dependencies := deps,
    canParallel := canP, category := .prep, startTime := start, dishLabel := dish }

/-- A non-parallel and a parallel step, both at time 0: the repair loop
converges immediately although the §4.1 classifier calls them conflicting. -/
def convergedPairSteps : List Step :=
  [mkStep 1 5 [] false 0 "" none, mkStep 2 5 [] true 0 "" none]

/-- Two steps depending on each other: the repair loop hits the 10-pass cap. -/
def cyclicPairSteps : List Step :=
  [mkStep 1 5 [2] true 0 "" none, mkStep 2 5 [1] true 0 "" none]

/-- Two dependency-free steps of different dishes, the second carrying input
start time 7: the parallel-candidate raise lifts the first one to 7. -/
def labelPairSteps : List Step :=
  [mkStep 1 5 [] true 0 "" (some "A"), mkStep 2 5 [] true 7 "" (some "B")]

/-- Resolver state on a cyclic two-step dependency graph. -/
def cyclicCalcState : SchedState :=
  ⟨[mkStep 1 5 [2] false 0 "" none, mkStep 2 5 [1] false 0 "" none], []⟩

/-- Steps sharing the ingredient keyword 卵, first dish label set, second unset. -/
def dishSetStep : Step := mkStep 1 5 [] true 0 "卵を割る" (some "A")

/-- The partner of `dishSetStep` with no dish label. -/
def dishUnsetStep : Step := mkStep 2 5 [] true 0 "卵と混ぜる" none

/-- Steps sharing the ingredient keyword 卵 and the same dish label. -/
def sameDishStep1 : Step := mkStep 1 5 [] true 0 "卵を割る" (some "A")

/-- The partner of `sameDishStep1` on the same dish. -/
def sameDishStep2 : Step := mkStep 2 5 [] true 0 "卵と混ぜる" (some "A")

/-- A step with duration 0 (malformed per the spec error taxonomy). -/
def zeroDurationStep : Step := mkStep 1 0 [] false 0 "" none

/-- Three steps, all input start times 0. -/
def shiftInputA : List Step :=
  [mkStep 1 1 [] true 0 "" (some "A"), mkStep 2 1 [] true 0 "" (some "B"),
   mkStep 3 5 [] false 0 "" none]

/-- The same three steps except the second carries input start time 7. -/
def shiftInputB : List Step :=
  [mkStep 1 1 [] true 0 "" (some "A"), mkStep 2 1 [] true 7 "" (some "B"),
   mkStep 3 5 [] false 0 "" none]

/-- A conflicting dependent pair on which the repair loop converges. -/
def chainPairSteps : List Step :=
  [mkStep 1 5 [] false 0 "" none, mkStep 2 3 [1] false 0 "" none]

/-- Distinct-id, never-parallel steps with nonzero input start times. -/
def depFreePairSteps : List Step :=
  [mkStep 1 5 [] false 3 "" none, mkStep 2 2 [1] false 4 "" none]

/-- Dependency-free never-parallel steps, input start times 3 and 4. -/
def allFreeInputA : List Step :=
  [mkStep 1 5 [] false 3 "" none, mkStep 2 2 [] false 4 "" none]

/-- The same steps as `allFreeInputA` with input start times 0 and 9. -/
def allFreeInputB : List Step :=
  [mkStep 1 5 [] false 0 "" none, mkStep 2 2 [] false 9 "" none]

/-- A one-step resolver state (id 1), for exercising a dangling id 99. -/
def danglingState : SchedState := ⟨[mkStep 1 5 [] false 0 "" none], []⟩

/-- A single scheduled step ending at time 7. -/
def singleStepList : List Step := [mkStep 1 5 [] false 2 "" none]

/-! ### Basic list lemmas -/

theorem getD_eq_get (l : List Step) (i : Nat) (d : Step) (h : i < l.length) :
    l.getD i d = l.get ⟨i, h⟩ := by
  induction l generalizing i with
  | nil => simp at h
  | cons x xs ih =>
    cases i with
    | zero => rfl
    | succ n => simpa using ih n (by simpa using h)

theorem le_foldl_max (xs : List Int) (a : Int) : a ≤ xs.foldl max a := by
  induction xs generalizing a with
  | nil => simp
  | cons x xs ih => exact le_trans (le_max_left a x) (ih (max a x))

theorem mem_le_foldl_max (xs : List Int) (a y : Int) (hy : y ∈ xs) :
    y ≤ xs.foldl max a := by
  induction xs generalizing a with
  | nil => simp at hy
  | cons x xs ih =>
    rcases List.mem_cons.mp hy with h | h
    · subst h
      exact le_trans (le_max_right a y) (le_foldl_max xs (max a y))
    · exact ih (max a x) h

theorem maxList_ge (x : Int) (xs : List Int) (y : Int) (hy : y ∈ x :: xs) :
    y ≤ maxList (x :: xs) := by
  rcases List.mem_cons.mp hy with h | h
  · subst h; exact le_foldl_max xs y
  · exact mem_le_foldl_max xs x y h

theorem foldl_max_mem (xs : List Int) (a : Int) : xs.foldl max a = a ∨ xs.foldl max a ∈ xs := by
  induction xs generalizing a with
  | nil => left; rfl
  | cons x xs ih =>
    have hfold : (x :: xs).foldl max a = xs.foldl max (max a x) := rfl
    rw [hfold]
    rcases ih (max a x) with h | h
    · rw [h]
      rcases le_or_lt a x with hax | hax
      · right; rw [max_eq_right hax]; exact List.mem_cons_self _ _
      · left; rw [max_eq_left hax.le]
    · right; exact List.mem_cons_of_mem x h

theorem maxList_mem (x : Int) (xs : List Int) : maxList (x :: xs) ∈ x :: xs := by
  have hdef : maxList (x :: xs) = xs.foldl max x := rfl
  rw [hdef]
  rcases foldl_max_mem xs x with h | h
  · rw [h]; exact List.mem_cons_self _ _
  · exact List.mem_cons_of_mem x h

/-! ### Shape lemmas: only `startTime` is ever written -/

theorem setStartAt_cons_succ (x : Step) (xs : List Step) (n : Nat) (t : Int) :
    setStartAt (x :: xs) (n + 1) t = x :: setStartAt xs n t := rfl

theorem eraseStart_set (s : Step) (t : Int) :
    eraseStart { s with startTime := t } = eraseStart s := rfl

theorem setStartAt_map_eraseStart (l : List Step) (i : Nat) (t : Int) :
    (setStartAt l i t).map eraseStart = l.map eraseStart := by
  induction l generalizing i with
  | nil => rfl
  | cons x xs ih =>
    cases i with
    | zero =>
      show eraseStart { x with startTime := t } :: xs.map eraseStart
        = eraseStart x :: xs.map eraseStart
      rw [eraseStart_set]
    | succ n =>
      rw [setStartAt_cons_succ]
      show eraseStart x :: (setStartAt xs n t).map eraseStart
        = eraseStart x :: xs.map eraseStart
      rw [ih n]

theorem setFirstStart_map_eraseStart (l : List Step) (stepId t : Int) :
    (setFirstStart l stepId t).map eraseStart = l.map eraseStart := by
  induction l with
  | nil => rfl
  | cons x xs ih =>
    by_cases h : (x.id == stepId) = true
    · simp only [setFirstStart, h, if_pos]
      show eraseStart { x with startTime := t } :: xs.map eraseStart
        = eraseStart x :: xs.map eraseStart
      rw [eraseStart_set]
    · simp only [setFirstStart, h]
      show eraseStart x :: (setFirstStart xs stepId t).map eraseStart
        = eraseStart x :: xs.map eraseStart
      rw [ih]

theorem idsOf_eq_of_map_eraseStart {l m : List Step}
    (h : l.map eraseStart = m.map eraseStart) : idsOf l = idsOf m := by
  have h2 := congrArg (List.map (fun s => s.id)) h
  simpa [List.map_map, idsOf, Function.comp, eraseStart] using h2

theorem mem_map_eraseStart {l base : List Step}
    (h : l.map eraseStart = base.map eraseStart) {a : Step} (ha : a ∈ l) :
    ∃ a0 ∈ base, eraseStart a = eraseStart a0 := by
  have hmem : eraseStart a ∈ base.map eraseStart := h ▸ List.mem_map_of_mem eraseStart ha
  rcases List.mem_map.mp hmem with ⟨a0, ha0, heq⟩
  exact ⟨a0, ha0, heq.symm⟩

theorem canRunInParallel_congr {a a2 b b2 : Step}
    (ha : eraseStart a = eraseStart a2) (hb : eraseStart b = eraseStart b2) :
    canRunInParallel a b = canRunInParallel a2 b2 := by
  have ha1 : a.canParallel = a2.canParallel := by
    have := congrArg Step.canParallel ha; simpa [eraseStart] using this
  have ha2 : a.dishLabel = a2.dishLabel := by
    have := congrArg Step.dishLabel ha; simpa [eraseStart] using this
  have ha3 : a.description = a2.description := by
    have := congrArg Step.description ha; simpa [eraseStart] using this
  have hb1 : b.canParallel = b2.canParallel := by
    have := congrArg Step.canParallel hb; simpa [eraseStart] using this
  have hb2 : b.dishLabel = b2.dishLabel := by
    have := congrArg Step.dishLabel hb; simpa [eraseStart] using this
  have hb3 : b.description = b2.description := by
    have := congrArg Step.description hb; simpa [eraseStart] using this
  simp only [canRunInParallel, ha1, ha2, ha3, hb1, hb2, hb3]

theorem eq_of_mem_of_id_eq {m : List Step} (h : (idsOf m).Nodup)
    {x y : Step} (hx : x ∈ m) (hy : y ∈ m) (hid : x.id = y.id) : x = y :=
  List.inj_on_of_nodup_map (f := fun s => s.id)
    (by simpa [idsOf] using h) hx hy hid

theorem noParById_of_map_eraseStart {l base : List Step}
    (h : l.map eraseStart = base.map eraseStart) (hnp : NoParById base) :
    NoParById l := by
  intro a ha b hb hab
  obtain ⟨a0, ha0, hea⟩ := mem_map_eraseStart h ha
  obtain ⟨b0, hb0, heb⟩ := mem_map_eraseStart h hb
  have hida : a.id = a0.id := by
    have := congrArg Step.id hea; simpa [eraseStart] using this
  have hidb : b.id = b0.id := by
    have := congrArg Step.id heb; simpa [eraseStart] using this
  rw [canRunInParallel_congr hea heb]
  exact hnp a0 ha0 b0 hb0 (by rw [← hida, ← hidb]; exact hab)

/-! ### Calculated-set counting lemmas -/

theorem contains_cons_of (cal : List Int) (x y : Int)
    (h : cal.contains x = true) : (y :: cal).contains x = true := by
  have hx : x ∈ cal := by simpa using h
  simpa using List.mem_cons_of_mem y hx

theorem length_filter_mono (l : List Int) (p q : Int → Bool)
    (h : ∀ a, q a = true → p a = true) :
    (l.filter q).length ≤ (l.filter p).length := by
  induction l with
  | nil => simp
  | cons x xs ih =>
    by_cases hq : q x = true
    · have hp := h x hq
      simp only [List.filter_cons, hq, hp, if_pos, List.length_cons]
      omega
    · rw [Bool.not_eq_true] at hq
      cases hp : p x
      · simp only [List.filter_cons, hq, hp, Bool.false_eq_true, if_neg, not_false_iff]
        exact ih
      · simp only [List.filter_cons, hq, hp, Bool.false_eq_true, if_neg, not_false_iff,
          if_pos, List.length_cons]
        omega

theorem uncalc_strict_aux (ids : List Int) (cal : List Int) (x : Int)
    (hmem : x ∈ ids) (hnc : cal.contains x = false) :
    (ids.filter (fun i => !(x :: cal).contains i)).length
      < (ids.filter (fun i => !cal.contains i)).length := by
  induction ids with
  | nil => simp at hmem
  | cons h t ih =>
    by_cases hx : h = x
    · subst hx
      have hnew : (!(h :: cal).contains h) = false := by simp
      have hold : (!cal.contains h) = true := by rw [hnc]; rfl
      simp only [List.filter_cons, hnew, hold, Bool.false_eq_true, if_neg, not_false_iff,
        if_pos, List.length_cons]
      have hle : (t.filter (fun i => !(h :: cal).contains i)).length
          ≤ (t.filter (fun i => !cal.contains i)).length := by
        apply length_filter_mono
        intro a ha
        rw [Bool.not_eq_true'] at ha ⊢
        rw [List.contains_cons] at ha
        exact (Bool.or_eq_false_iff.mp ha).2
      omega
    · have hmem2 : x ∈ t := by
        rcases List.mem_cons.mp hmem with h1 | h1
        · exact absurd h1.symm hx
        · exact h1
      have hcc : (x :: cal).contains h = cal.contains h := by
        rw [List.contains_cons]
        have : (h == x) = false := by simpa using hx
        rw [this, Bool.false_or]
      cases hch : cal.contains h
      · have h1 : (!(x :: cal).contains h) = true := by rw [hcc, hch]; rfl
        have h2 : (!cal.contains h) = true := by rw [hch]; rfl
        simp only [List.filter_cons, h1, h2, if_pos, List.length_cons]
        have := ih hmem2
        omega
      · have h1 : (!(x :: cal).contains h) = false := by rw [hcc, hch]; rfl
        have h2 : (!cal.contains h) = false := by rw [hch]; rfl
        simp only [List.filter_cons, h1, h2, Bool.false_eq_true, if_neg, not_false_iff]
        exact ih hmem2

theorem uncalc_strict (st : SchedState) (stepId : Int)
    (hmem : stepId ∈ idsOf st.steps) (hnc : st.calculated.contains stepId = false) :
    uncalcCount ⟨st.steps, stepId :: st.calculated⟩ < uncalcCount st :=
  uncalc_strict_aux (idsOf st.steps) st.calculated stepId hmem hnc

theorem uncalc_mono_of (st st' : SchedState)
    (hids : idsOf st'.steps = idsOf st.steps)
    (hcal : ∀ x, st.calculated.contains x = true → st'.calculated.contains x = true) :
    uncalcCount st' ≤ uncalcCount st := by
  unfold uncalcCount
  rw [hids]
  apply length_filter_mono
  intro a ha
  rw [Bool.not_eq_true'] at ha ⊢
  cases hc : st.calculated.contains a
  · rfl
  · exact absurd (hcal a hc) (by rw [ha]; exact Bool.false_ne_true)

/-! ### Stable sort produces a permutation -/

theorem insertByKey_perm {α : Type} (key : α → Int) (x : α) (l : List α) :
    (insertByKey key x l).Perm (x :: l) := by
  induction l with
  | nil => exact List.Perm.refl _
  | cons y ys ih =>
    by_cases h : key x ≤ key y
    · rw [show insertByKey key x (y :: ys) = x :: y :: ys from by simp [insertByKey, h]]
    · rw [show insertByKey key x (y :: ys) = y :: insertByKey key x ys from by
        simp [insertByKey, h]]
      exact (ih.cons y).trans (List.Perm.swap x y ys)

theorem sortByKey_perm {α : Type} (key : α → Int) (l : List α) :
    (sortByKey key l).Perm l := by
  induction l with
  | nil => exact List.Perm.refl _
  | cons x xs ih =>
    exact (insertByKey_perm key x (sortByKey key xs)).trans (ih.cons x)

theorem mem_sortedIdx (steps : List Step) (i : Nat) (h : i < steps.length) :
    i ∈ sortedIdx steps :=
  ((sortByKey_perm _ _).mem_iff).mpr (List.mem_range.mpr h)

/-! ### Resolver facts: shape preservation, fuel sufficiency -/

theorem shapeRel_refl (st : SchedState) : ShapeRel st st :=
  ⟨rfl, fun _ h => h⟩

theorem shapeRel_trans {a b c : SchedState} (h1 : ShapeRel a b) (h2 : ShapeRel b c) :
    ShapeRel a c :=
  ⟨h2.1.trans h1.1, fun x hx => h2.2 x (h1.2 x hx)⟩

theorem findById_id {l : List Step} {stepId : Int} {step : Step}
    (h : findById l stepId = some step) : step.id = stepId := by
  have := List.find?_some h
  simpa using this

theorem findById_mem {l : List Step} {stepId : Int} {step : Step}
    (h : findById l stepId = some step) : step ∈ l :=
  List.mem_of_find?_eq_some h

theorem findById_isSome_of_mem (l : List Step) (i : Int) (h : i ∈ idsOf l) :
    (findById l i).isSome := by
  rcases List.mem_map.mp (by simpa [idsOf] using h) with ⟨s, hs, hid⟩
  exact List.find?_isSome.mpr ⟨s, hs, by simpa using hid⟩

theorem calcDepEnds_shape (f : SchedState → Int → Option (Int × SchedState))
    (Hf : ∀ st id r, f st id = some r → ShapeRel st r.2) :
    ∀ (ds : List Int) (st : SchedState) (r : List Int × SchedState),
      calcDepEnds f st ds = some r → ShapeRel st r.2 := by
  intro ds
  induction ds with
  | nil =>
    intro st r h
    simp only [calcDepEnds] at h
    injection h with h
    rw [← h]
    exact shapeRel_refl st
  | cons d rest ih =>
    intro st r h
    simp only [calcDepEnds] at h
    cases hf : f st d with
    | none => rw [hf] at h; exact absurd h (by simp)
    | some p =>
      obtain ⟨v, st1⟩ := p
      rw [hf] at h
      dsimp only at h
      cases hrest : calcDepEnds f st1 rest with
      | none => rw [hrest] at h; exact absurd h (by simp)
      | some q =>
        obtain ⟨vs, st2⟩ := q
        rw [hrest] at h
        dsimp only at h
        injection h with h
        have h1 := Hf st d (v, st1) hf
        have h2 := ih st1 (vs, st2) hrest
        have hr : r.2 = st2 := by rw [← h]
        rw [hr]
        exact shapeRel_trans h1 h2

theorem calculateStartTime_shape :
    ∀ (fuel : Nat) (st : SchedState) (stepId : Int) (r : Int × SchedState),
      calculateStartTime fuel st stepId = some r → ShapeRel st r.2 := by
  intro fuel
  induction fuel with
  | zero => intro st stepId r h; exact absurd h (by simp [calculateStartTime])
  | succ n ih =>
    intro st stepId r h
    simp only [calculateStartTime] at h
    cases hf : findById st.steps stepId with
    | none =>
      rw [hf] at h
      injection h with h
      rw [← h]
      exact shapeRel_refl st
    | some step =>
      rw [hf] at h
      dsimp only at h
      by_cases hc : st.calculated.contains stepId = true
      · rw [if_pos hc] at h
        injection h with h
        rw [← h]
        exact shapeRel_refl st
      · rw [if_neg hc] at h
        cases hd : calcDepEnds (calculateStartTime n)
            ⟨st.steps, stepId :: st.calculated⟩ step.dependencies with
        | none => rw [hd] at h; exact absurd h (by simp)
        | some q =>
          obtain ⟨ends, st2⟩ := q
          rw [hd] at h
          dsimp only at h
          injection h with h
          have hq := calcDepEnds_shape (calculateStartTime n)
            (fun st3 id3 r3 hr3 => ih st3 id3 r3 hr3)
            step.dependencies ⟨st.steps, stepId :: st.calculated⟩ (ends, st2) hd
          rw [← h]
          constructor
          · show (setFirstStart st2.steps stepId _).map eraseStart
              = st.steps.map eraseStart
            rw [setFirstStart_map_eraseStart]
            exact hq.1
          · intro x hx
            show st2.calculated.contains x = true
            exact hq.2 x (contains_cons_of _ _ _ hx)

theorem calcDepEnds_isSome (f : SchedState → Int → Option (Int × SchedState)) (B : Nat)
    (Hsome : ∀ st id, uncalcCount st ≤ B → (f st id).isSome = true)
    (Hshape : ∀ st id r, f st id = some r → ShapeRel st r.2) :
    ∀ (ds : List Int) (st : SchedState), uncalcCount st ≤ B →
      (calcDepEnds f st ds).isSome = true := by
  intro ds
  induction ds with
  | nil => intro st _; simp [calcDepEnds]
  | cons d rest ih =>
    intro st hst
    simp only [calcDepEnds]
    cases hf : f st d with
    | none => exact absurd (Hsome st d hst) (by rw [hf]; simp)
    | some p =>
      obtain ⟨v, st1⟩ := p
      dsimp only
      have hs := Hshape st d (v, st1) hf
      have hm : uncalcCount st1 ≤ uncalcCount st :=
        uncalc_mono_of st st1 (idsOf_eq_of_map_eraseStart hs.1) hs.2
      have hrec := ih st1 (le_trans hm hst)
      cases hrest : calcDepEnds f st1 rest with
      | none => rw [hrest] at hrec; exact absurd hrec (by simp)
      | some q =>
        obtain ⟨vs, st2⟩ := q
        simp

theorem calculateStartTime_isSome :
    ∀ (fuel : Nat) (st : SchedState) (stepId : Int),
      uncalcCount st < fuel → (calculateStartTime fuel st stepId).isSome = true := by
  intro fuel
  induction fuel with
  | zero => intro st stepId h; exact absurd h (Nat.not_lt_zero _)
  | succ n ih =>
    intro st stepId h
    simp only [calculateStartTime]
    cases hf : findById st.steps stepId with
    | none => simp
    | some step =>
      dsimp only
      by_cases hc : st.calculated.contains stepId = true
      · rw [if_pos hc]; simp
      · rw [if_neg hc]
        rw [Bool.not_eq_true] at hc
        have hmem : stepId ∈ idsOf st.steps := by
          have h1 := findById_id hf
          have h2 := findById_mem hf
          have : step.id ∈ idsOf st.steps := by
            simpa [idsOf] using List.mem_map_of_mem (fun s => s.id) h2
          rwa [h1] at this
        have hstrict : uncalcCount ⟨st.steps, stepId :: st.calculated⟩ < uncalcCount st :=
          uncalc_strict st stepId hmem hc
        have hsome := calcDepEnds_isSome (calculateStartTime n)
          (uncalcCount ⟨st.steps, stepId :: st.calculated⟩)
          (fun st' id' hst' => ih st' id' (by omega))
          (fun st' id' r' hr' => calculateStartTime_shape n st' id' r' hr')
          step.dependencies ⟨st.steps, stepId :: st.calculated⟩ (le_refl _)
        cases hd : calcDepEnds (calculateStartTime n)
            ⟨st.steps, stepId :: st.calculated⟩ step.dependencies with
        | none => rw [hd] at hsome; exact absurd hsome (by simp)
        | some q =>
          obtain ⟨ends, st2⟩ := q
          simp

theorem foldCalc_shape (F : Nat) :
    ∀ (l : List Step) (st : SchedState),
      ShapeRel st (l.foldl
        (fun st s => ((calculateStartTime F st s.id).getD (0, st)).2) st) := by
  intro l
  induction l with
  | nil => intro st; exact shapeRel_refl st
  | cons x xs ih =>
    intro st
    have hone : ShapeRel st ((calculateStartTime F st x.id).getD (0, st)).2 := by
      cases hr : calculateStartTime F st x.id with
      | none => exact shapeRel_refl st
      | some r => exact calculateStartTime_shape F st x.id r hr
    exact shapeRel_trans hone (ih _)

theorem optimizeSteps_map_eraseStart (steps : List Step) :
    (optimizeSteps steps).map eraseStart = steps.map eraseStart := by
  unfold optimizeSteps
  by_cases h : steps.isEmpty
  · rw [if_pos h]
  · rw [if_neg h]
    exact (foldCalc_shape (steps.length + 1) steps ⟨steps, []⟩).1

/-! ### Repair-engine shape lemmas -/

theorem fixOneConflict_map_eraseStart (steps : List Step) (ij : Nat × Nat) :
    (fixOneConflict steps ij).map eraseStart = steps.map eraseStart := by
  unfold fixOneConflict
  exact setStartAt_map_eraseStart ..

theorem fixConflicts_map_eraseStart :
    ∀ (cps : List (Nat × Nat)) (steps : List Step),
      (fixConflicts steps cps).map eraseStart = steps.map eraseStart := by
  intro cps
  induction cps with
  | nil => intro steps; rfl
  | cons ij rest ih =>
    intro steps
    show (fixConflicts (fixOneConflict steps ij) rest).map eraseStart
      = steps.map eraseStart
    rw [ih, fixOneConflict_map_eraseStart]

theorem applyGap_map_eraseStart (steps : List Step) (g : Int × Int) :
    (applyGap steps g).1.map eraseStart = steps.map eraseStart := by
  simp only [applyGap, List.map_map]
  apply List.map_congr_left
  intro a _
  by_cases h : g.2 ≤ a.startTime
  · simp only [Function.comp, if_pos h]
    exact eraseStart_set a _
  · simp only [Function.comp, if_neg h]

theorem applyGaps_map_eraseStart :
    ∀ (gs : List (Int × Int)) (steps : List Step),
      (applyGaps steps gs).1.map eraseStart = steps.map eraseStart := by
  intro gs
  induction gs with
  | nil => intro steps; rfl
  | cons g rest ih =>
    intro steps
    show (applyGaps (applyGap steps g).1 rest).1.map eraseStart = steps.map eraseStart
    rw [ih, applyGap_map_eraseStart]

theorem fixDepsOne_map_eraseStart (steps : List Step) (i : Nat) :
    (fixDepsOne steps i).1.map eraseStart = steps.map eraseStart := by
  unfold fixDepsOne
  by_cases h1 : (stepAt steps i).dependencies.isEmpty
  · rw [if_pos h1]
  · rw [if_neg h1]
    by_cases h2 : (stepAt steps i).startTime
        < maxList ((stepAt steps i).dependencies.map (depEndTime steps))
    · rw [if_pos h2]
      exact setStartAt_map_eraseStart ..
    · rw [if_neg h2]

theorem fixDeps_map_eraseStart :
    ∀ (idx : List Nat) (steps : List Step),
      (fixDeps steps idx).1.map eraseStart = steps.map eraseStart := by
  intro idx
  induction idx with
  | nil => intro steps; rfl
  | cons i rest ih =>
    intro steps
    show (fixDeps (fixDepsOne steps i).1 rest).1.map eraseStart = steps.map eraseStart
    rw [ih, fixDepsOne_map_eraseStart]

theorem validatePass_map_eraseStart (steps : List Step) :
    (validatePass steps).1.map eraseStart = steps.map eraseStart := by
  unfold validatePass
  rw [fixDeps_map_eraseStart, applyGaps_map_eraseStart, fixConflicts_map_eraseStart]

theorem validateLoop_map_eraseStart :
    ∀ (n : Nat) (steps : List Step),
      (validateLoop n steps).1.map eraseStart = steps.map eraseStart := by
  intro n
  induction n with
  | zero => intro steps; rfl
  | succ m ih =>
    intro steps
    show (if (validatePass steps).2 then validateLoop m (validatePass steps).1
          else ((validatePass steps).1, true)).1.map eraseStart = steps.map eraseStart
    by_cases h : (validatePass steps).2 = true
    · rw [if_pos h, ih, validatePass_map_eraseStart]
    · rw [if_neg h]
      exact validatePass_map_eraseStart steps

theorem validateAndFixSteps_map_eraseStart (steps : List Step) :
    (validateAndFixSteps steps).map eraseStart = steps.map eraseStart := by
  unfold validateAndFixSteps
  by_cases h : steps.isEmpty
  · rw [if_pos h]
  · rw [if_neg h]
    exact validateLoop_map_eraseStart 10 steps

theorem scheduleSteps_map_eraseStart (steps : List Step) :
    (scheduleSteps steps).map eraseStart = steps.map eraseStart := by
  unfold scheduleSteps
  rw [validateAndFixSteps_map_eraseStart, optimizeSteps_map_eraseStart]

/-! ### Fixpoint characterization of the repair loop -/

theorem applyGap_no_change (steps : List Step) (g : Int × Int)
    (h : (applyGap steps g).2 = false) : (applyGap steps g).1 = steps := by
  have hall : ∀ a ∈ steps, ¬ (g.2 ≤ a.startTime) := by
    intro a ha
    have := List.any_eq_false.mp h a ha
    simpa using this
  show steps.map _ = steps
  have : ∀ a ∈ steps,
      (if g.2 ≤ a.startTime
       then { a with startTime := a.startTime - (g.2 - g.1) } else a) = a := by
    intro a ha
    rw [if_neg (hall a ha)]
  rw [List.map_congr_left this]
  simp

theorem applyGaps_no_change :
    ∀ (gs : List (Int × Int)) (steps : List Step),
      (applyGaps steps gs).2 = false → (applyGaps steps gs).1 = steps := by
  intro gs
  induction gs with
  | nil => intro steps _; rfl
  | cons g rest ih =>
    intro steps h
    have hsplit : (applyGap steps g).2 = false
        ∧ (applyGaps (applyGap steps g).1 rest).2 = false := by
      have : ((applyGap steps g).2 || (applyGaps (applyGap steps g).1 rest).2) = false := h
      exact Bool.or_eq_false_iff.mp this
    have h1 := applyGap_no_change steps g hsplit.1
    show (applyGaps (applyGap steps g).1 rest).1 = steps
    rw [ih (applyGap steps g).1 hsplit.2, h1]

theorem fixDepsOne_no_change (steps : List Step) (i : Nat)
    (h : (fixDepsOne steps i).2 = false) :
    (fixDepsOne steps i).1 = steps ∧
      ((stepAt steps i).dependencies = [] ∨
        maxList ((stepAt steps i).dependencies.map (depEndTime steps))
          ≤ (stepAt steps i).startTime) := by
  unfold fixDepsOne at h ⊢
  by_cases h1 : (stepAt steps i).dependencies.isEmpty
  · rw [if_pos h1]
    exact ⟨rfl, Or.inl (List.isEmpty_iff.mp h1)⟩
  · rw [if_neg h1] at h ⊢
    by_cases h2 : (stepAt steps i).startTime
        < maxList ((stepAt steps i).dependencies.map (depEndTime steps))
    · rw [if_pos h2] at h
      exact absurd h (by simp)
    · rw [if_neg h2]
      exact ⟨rfl, Or.inr (not_lt.mp h2)⟩

theorem fixDeps_no_change :
    ∀ (idx : List Nat) (steps : List Step),
      (fixDeps steps idx).2 = false →
      (fixDeps steps idx).1 = steps ∧
        (∀ i ∈ idx, (stepAt steps i).dependencies = [] ∨
          maxList ((stepAt steps i).dependencies.map (depEndTime steps))
            ≤ (stepAt steps i).startTime) := by
  intro idx
  induction idx with
  | nil => intro steps _; exact ⟨rfl, by intro i hi; exact absurd hi (List.not_mem_nil i)⟩
  | cons i rest ih =>
    intro steps h
    have hsplit : (fixDepsOne steps i).2 = false
        ∧ (fixDeps (fixDepsOne steps i).1 rest).2 = false := by
      have : ((fixDepsOne steps i).2 || (fixDeps (fixDepsOne steps i).1 rest).2) = false := h
      exact Bool.or_eq_false_iff.mp this
    obtain ⟨heq1, hprop1⟩ := fixDepsOne_no_change steps i hsplit.1
    have hrest := ih (fixDepsOne steps i).1 hsplit.2
    rw [heq1] at hrest
    constructor
    · show (fixDeps (fixDepsOne steps i).1 rest).1 = steps
      rw [heq1]
      exact hrest.1
    · intro j hj
      rcases List.mem_cons.mp hj with hji | hjr
      · subst hji; exact hprop1
      · exact hrest.2 j hjr

theorem validatePass_no_change (steps steps' : List Step)
    (h : validatePass steps = (steps', false)) :
    steps' = steps ∧ conflictPairs steps = [] ∧
      (∀ i ∈ sortedIdx steps, (stepAt steps i).dependencies = [] ∨
        maxList ((stepAt steps i).dependencies.map (depEndTime steps))
          ≤ (stepAt steps i).startTime) := by
  have hflag : (!(conflictPairs steps).isEmpty
      || (applyGaps (fixConflicts steps (conflictPairs steps))
            (detectTimeGaps (fixConflicts steps (conflictPairs steps)))).2
      || (fixDeps (applyGaps (fixConflicts steps (conflictPairs steps))
            (detectTimeGaps (fixConflicts steps (conflictPairs steps)))).1
          (sortedIdx (applyGaps (fixConflicts steps (conflictPairs steps))
            (detectTimeGaps (fixConflicts steps (conflictPairs steps)))).1)).2) = false := by
    have := congrArg Prod.snd h
    exact this
  have h3 := Bool.or_eq_false_iff.mp hflag
  have h4 := Bool.or_eq_false_iff.mp h3.1
  have hcps : conflictPairs steps = [] := by
    have : (conflictPairs steps).isEmpty = true := by
      have := h4.1
      simpa using this
    exact List.isEmpty_iff.mp this
  have hfix : fixConflicts steps (conflictPairs steps) = steps := by
    rw [hcps]; rfl
  rw [hfix] at h4 h3
  have hgaps := applyGaps_no_change (detectTimeGaps steps) steps h4.2
  rw [hgaps] at h3
  have hdeps := fixDeps_no_change (sortedIdx steps) steps h3.2
  have hfst : steps' = steps := by
    have := congrArg Prod.fst h
    dsimp at this
    rw [← this]
    show (fixDeps (applyGaps (fixConflicts steps (conflictPairs steps))
        (detectTimeGaps (fixConflicts steps (conflictPairs steps)))).1
        (sortedIdx (applyGaps (fixConflicts steps (conflictPairs steps))
          (detectTimeGaps (fixConflicts steps (conflictPairs steps)))).1)).1 = steps
    rw [hfix, hgaps]
    exact hdeps.1
  exact ⟨hfst, hcps, hdeps.2⟩

theorem validateLoop_converged :
    ∀ (n : Nat) (steps : List Step), (validateLoop n steps).2 = true →
      validatePass (validateLoop n steps).1 = ((validateLoop n steps).1, false) := by
  intro n
  induction n with
  | zero => intro steps h; exact absurd h (by simp [validateLoop])
  | succ m ih =>
    intro steps h
    by_cases hp : (validatePass steps).2 = true
    · have hstep : validateLoop (m + 1) steps = validateLoop m (validatePass steps).1 := by
        show (if (validatePass steps).2 then validateLoop m (validatePass steps).1
              else ((validatePass steps).1, true)) = _
        rw [if_pos hp]
      rw [hstep] at h ⊢
      exact ih (validatePass steps).1 h
    · have hstep : validateLoop (m + 1) steps = ((validatePass steps).1, true) := by
        show (if (validatePass steps).2 then validateLoop m (validatePass steps).1
              else ((validatePass steps).1, true)) = _
        rw [if_neg hp]
      rw [hstep]
      have hp2 : (validatePass steps).2 = false := by
        rw [Bool.not_eq_true] at hp; exact hp
      have hpair : validatePass steps = ((validatePass steps).1, false) := by
        rw [← hp2]
      have hself := validatePass_no_change steps (validatePass steps).1 hpair
      show validatePass (validatePass steps).1 = ((validatePass steps).1, false)
      rw [hself.1]
      rw [hself.1] at hpair
      exact hpair

theorem conflictPairs_nil_no_overlap (steps : List Step)
    (h : conflictPairs steps = []) :
    ∀ i j, i < steps.length → j < steps.length → i < j →
      (stepAt steps i).canParallel = false → (stepAt steps j).canParallel = false →
      detectStepOverlap (stepAt steps i) (stepAt steps j) = false := by
  intro i j hi hj hij hci hcj
  by_contra hov
  rw [Bool.not_eq_false] at hov
  have hmem : (i, j) ∈ conflictPairs steps := by
    simp only [conflictPairs, List.mem_flatMap]
    refine ⟨i, List.mem_range.mpr hi, ?_⟩
    simp only [List.mem_map, List.mem_filter, List.mem_range]
    exact ⟨j, ⟨hj, by simp [hij, hci, hcj, hov]⟩, rfl⟩
  rw [h] at hmem
  exact absurd hmem (List.not_mem_nil _)

/-! ### Claim theorems -/

/-- Claim C1 counterexample: on `convergedPairSteps` the repair loop
converges in one pass and returns the input unchanged, yet step 1
(canParallel false) and step 2 (canParallel true) are classified
conflicting by the §4.1 classifier (`canRunInParallel` returns false) and
their intervals [0,5) overlap — the repair engine only checks pairs where
BOTH steps are non-parallelizable. -/
theorem c1_counterexample :
    (validateLoop 10 convergedPairSteps).2 = true ∧
    validateAndFixSteps convergedPairSteps = convergedPairSteps ∧
    canRunInParallel (stepAt (validateAndFixSteps convergedPairSteps) 0)
      (stepAt (validateAndFixSteps convergedPairSteps) 1) = false ∧
    detectStepOverlap (stepAt (validateAndFixSteps convergedPairSteps) 0)
      (stepAt (validateAndFixSteps convergedPairSteps) 1) = true := by
  decide

/-- Claim C1 (amended): if the repair loop converges (a no-change pass
within the 10-pass budget), then no two steps that BOTH have
canParallel = false have overlapping half-open intervals in the returned
schedule.  (The engine's conflict detector tests only such pairs, not the
full §4.1 classifier.) -/
theorem c1_amended (steps : List Step) (hconv : (validateLoop 10 steps).2 = true) :
    ∀ i j, i < (validateAndFixSteps steps).length →
      j < (validateAndFixSteps steps).length → i < j →
      (stepAt (validateAndFixSteps steps) i).canParallel = false →
      (stepAt (validateAndFixSteps steps) j).canParallel = false →
      detectStepOverlap (stepAt (validateAndFixSteps steps) i)
        (stepAt (validateAndFixSteps steps) j) = false := by
  intro i j hi hj hij hci hcj
  by_cases hemp : steps.isEmpty
  · exfalso
    have heq : validateAndFixSteps steps = steps := by
      unfold validateAndFixSteps; rw [if_pos hemp]
    have hnil : steps = [] := List.isEmpty_iff.mp hemp
    rw [heq, hnil] at hi
    exact absurd hi (by simp)
  · have hout : validateAndFixSteps steps = (validateLoop 10 steps).1 := by
      unfold validateAndFixSteps; rw [if_neg hemp]
    have hfix := validateLoop_converged 10 steps hconv
    have hnc := validatePass_no_change (validateLoop 10 steps).1
      (validateLoop 10 steps).1 hfix
    rw [hout] at hi hj hci hcj ⊢
    exact conflictPairs_nil_no_overlap _ hnc.2.1 i j hi hj hij hci hcj

/-- Claim C1 witness: `chainPairSteps` converges and its two
non-parallelizable steps do not overlap in the result. -/
theorem c1_witness :
    (validateLoop 10 chainPairSteps).2 = true ∧
    detectStepOverlap (stepAt (validateAndFixSteps chainPairSteps) 0)
      (stepAt (validateAndFixSteps chainPairSteps) 1) = false :=
  ⟨by decide, c1_amended chainPairSteps (by decide) 0 1 (by decide) (by decide)
    (by decide) (by decide) (by decide)⟩

/-- Claim C2 counterexample: on the cyclic pair the repair loop hits the
10-pass cap and returns step 1 at time 10 while its dependency (step 2)
ends at time 20 — dependency ordering does NOT hold unconditionally on the
returned schedule. -/
theorem c2_counterexample :
    (validateLoop 10 cyclicPairSteps).2 = false ∧
    (stepAt (validateAndFixSteps cyclicPairSteps) 0).dependencies = [2] ∧
    depEndTime (validateAndFixSteps cyclicPairSteps) 2 = 20 ∧
    (stepAt (validateAndFixSteps cyclicPairSteps) 0).startTime
      < depEndTime (validateAndFixSteps cyclicPairSteps) 2 := by
  decide

/-- Claim C2 (amended): if the repair loop converges (a no-change pass
within the 10-pass budget), dependency ordering holds on the returned
schedule: every step starts no earlier than the end of each dependency
whose id resolves in the plan. -/
theorem c2_amended (steps : List Step) (hconv : (validateLoop 10 steps).2 = true) :
    ∀ s ∈ validateAndFixSteps steps, ∀ depId ∈ s.dependencies,
      ∀ d, findById (validateAndFixSteps steps) depId = some d →
        d.startTime + d.duration ≤ s.startTime := by
  intro s hs depId hdep d hd
  by_cases hemp : steps.isEmpty
  · exfalso
    have heq : validateAndFixSteps steps = steps := by
      unfold validateAndFixSteps; rw [if_pos hemp]
    have hnil : steps = [] := List.isEmpty_iff.mp hemp
    rw [heq, hnil] at hs
    exact absurd hs (List.not_mem_nil s)
  · have hout : validateAndFixSteps steps = (validateLoop 10 steps).1 := by
      unfold validateAndFixSteps; rw [if_neg hemp]
    have hfix := validateLoop_converged 10 steps hconv
    have hnc := validatePass_no_change (validateLoop 10 steps).1
      (validateLoop 10 steps).1 hfix
    rw [hout] at hs hd
    obtain ⟨⟨i, hilen⟩, hgi⟩ := List.mem_iff_get.mp hs
    have hat : stepAt (validateLoop 10 steps).1 i = s := by
      rw [stepAt, getD_eq_get _ i defaultStep hilen, hgi]
    have hdp := hnc.2.2 i (mem_sortedIdx _ i hilen)
    rw [hat] at hdp
    rcases hdp with hnil | hle
    · rw [hnil] at hdep; exact absurd hdep (List.not_mem_nil depId)
    · have hend : depEndTime (validateLoop 10 steps).1 depId = d.startTime + d.duration := by
        unfold depEndTime; rw [hd]
      have hmax : depEndTime (validateLoop 10 steps).1 depId
          ≤ maxList (s.dependencies.map (depEndTime (validateLoop 10 steps).1)) := by
        cases hd0 : s.dependencies with
        | nil => rw [hd0] at hdep; exact absurd hdep (List.not_mem_nil depId)
        | cons d0 ds =>
          have hmm : depEndTime (validateLoop 10 steps).1 depId
              ∈ (d0 :: ds).map (depEndTime (validateLoop 10 steps).1) := by
            rw [← hd0]
            exact List.mem_map_of_mem _ hdep
          rw [List.map_cons] at hmm ⊢
          exact maxList_ge _ _ _ hmm
      rw [← hend]
      exact le_trans hmax hle

/-- Claim C2 witness: on the converging `chainPairSteps`, the dependent
step (id 2) starts at or after the end of its dependency (id 1). -/
theorem c2_witness :
    (validateLoop 10 chainPairSteps).2 = true ∧
    (stepAt (validateAndFixSteps chainPairSteps) 0).startTime
        + (stepAt (validateAndFixSteps chainPairSteps) 0).duration
      ≤ (stepAt (validateAndFixSteps chainPairSteps) 1).startTime :=
  ⟨by decide,
   c2_amended chainPairSteps (by decide)
     (stepAt (validateAndFixSteps chainPairSteps) 1) (by decide)
     1 (by decide)
     (stepAt (validateAndFixSteps chainPairSteps) 0) (by decide)⟩

/-- Claim C4 counterexample: the recursive earliest-start computation does
NOT diverge on the canonical cyclic two-step input — the `calculated` set
doubles as a visited-set guard. -/
theorem c4_counterexample : ¬ calcDiverges cyclicCalcState 1 := by
  intro h
  exact absurd (h 3) (by decide)

/-- Claim C4 (amended): `calculateStartTime` terminates on EVERY input,
cyclic dependency graphs included: recursion depth is bounded by the
number of not-yet-calculated step ids, because each recursive descent
first inserts its id into the memo set and a revisit returns the step's
current startTime instead of recursing. -/
theorem c4_amended (st : SchedState) (stepId : Int) (fuel : Nat)
    (h : uncalcCount st < fuel) :
    (calculateStartTime fuel st stepId).isSome = true :=
  calculateStartTime_isSome fuel st stepId h

/-- Claim C4 witness: on the cyclic state, fuel 3 exceeds the uncalculated
count 2 and the computation returns a value. -/
theorem c4_witness :
    uncalcCount cyclicCalcState < 3 ∧
    (calculateStartTime 3 cyclicCalcState 1).isSome = true :=
  ⟨by decide, c4_amended cyclicCalcState 1 3 (by decide)⟩

/-- Claim C5 counterexample: both steps have canParallel = true, exactly
one dish label is unset, their extracted ingredient sets share 卵 — yet the
classifier returns parallel-compatible (true), because the ingredient check
only runs when the two dishLabel values are strictly equal. -/
theorem c5_counterexample :
    dishSetStep.canParallel = true ∧ dishUnsetStep.canParallel = true ∧
    dishUnsetStep.dishLabel = none ∧ dishSetStep.dishLabel = some "A" ∧
    ((extractIngredients dishSetStep.description).any
      (fun ing => (extractIngredients dishUnsetStep.description).contains ing)) = true ∧
    canRunInParallel dishSetStep dishUnsetStep = true := by
  decide

/-- Claim C5 (amended): for two canParallel steps whose dishLabel values
are EQUAL (both unset, or both set to the same label), an intersection of
the extracted ingredient keyword sets makes the classifier return conflict
(canRunInParallel = false); when exactly one label is unset the classifier
returns true regardless of ingredients. -/
theorem c5_amended (a b : Step) (ha : a.canParallel = true) (hb : b.canParallel = true)
    (hdish : a.dishLabel = b.dishLabel)
    (hing : ((extractIngredients a.description).any
      (fun ing => (extractIngredients b.description).contains ing)) = true) :
    canRunInParallel a b = false := by
  unfold canRunInParallel
  rw [ha, hb, hdish]
  simp [hing]
  intro hno
  exfalso
  rcases List.any_eq_true.mp hing with ⟨ing, hmem, hcont⟩
  exact hno ing hmem (by simpa using hcont)

/-- Claim C5 witness: same dish label, shared ingredient 卵: conflict. -/
theorem c5_witness :
    (sameDishStep1.canParallel = true ∧ sameDishStep2.canParallel = true ∧
     sameDishStep1.dishLabel = sameDishStep2.dishLabel ∧
     ((extractIngredients sameDishStep1.description).any
       (fun ing => (extractIngredients sameDishStep2.description).contains ing)) = true) ∧
    canRunInParallel sameDishStep1 sameDishStep2 = false :=
  ⟨⟨by decide, by decide, by decide, by decide⟩,
   c5_amended sameDishStep1 sameDishStep2 (by decide) (by decide) (by decide) (by decide)⟩

/-- Claim C6 counterexample: a plan whose only step has duration 0 is not
rejected — the pipeline schedules it unchanged and the required-fields
check does not cover step ids or durations. -/
theorem c6_counterexample :
    scheduleSteps [zeroDurationStep] = [zeroDurationStep] ∧
    zeroDurationStep.duration = 0 ∧
    "duration" ∉ requiredFields ∧ "id" ∉ requiredFields := by
  decide

/-- Claim C6 (amended): the route performs no per-step validation: only the
five top-level recipe fields are required, scheduling never fails, and
every step's duration (like every non-startTime field) survives the
pipeline unchanged — so a non-positive-duration step is emitted as-is. -/
theorem c6_amended (steps : List Step) :
    (scheduleSteps steps).map (fun s => s.duration) = steps.map (fun s => s.duration) ∧
    "duration" ∉ requiredFields ∧ "id" ∉ requiredFields := by
  refine ⟨?_, by decide, by decide⟩
  have h2 := congrArg (List.map (fun s => s.duration)) (scheduleSteps_map_eraseStart steps)
  simpa [List.map_map, Function.comp, eraseStart] using h2

/-- Claim C9: the scheduler (optimizeSteps then validateAndFixSteps)
returns exactly the input steps, in order, with every field other than
startTime unchanged. -/
theorem c9_frame (steps : List Step) :
    (scheduleSteps steps).map eraseStart = steps.map eraseStart :=
  scheduleSteps_map_eraseStart steps

/-- Claim C8: a dependency id that resolves to no step in the plan is
treated as already satisfied: the resolver returns 0 for it without
touching the state, its contribution to the dependency end-time list is 0,
and the repair engine's re-validation end time for it is 0. -/
theorem c8_dangling (steps : List Step) (cal : List Int) (depId : Int) (fuel : Nat)
    (hmiss : findById steps depId = none) (hfuel : 0 < fuel) :
    calculateStartTime fuel ⟨steps, cal⟩ depId = some (0, ⟨steps, cal⟩) ∧
    calcDepEnds (calculateStartTime fuel) ⟨steps, cal⟩ [depId]
      = some ([0], ⟨steps, cal⟩) ∧
    depEndTime steps depId = 0 := by
  obtain ⟨f, rfl⟩ : ∃ f, fuel = f + 1 := ⟨fuel - 1, by omega⟩
  have hcalc : calculateStartTime (f + 1) ⟨steps, cal⟩ depId = some (0, ⟨steps, cal⟩) := by
    simp only [calculateStartTime]
    rw [hmiss]
  refine ⟨hcalc, ?_, ?_⟩
  · simp only [calcDepEnds]
    rw [hcalc]
    dsimp only
    rw [hmiss]
    simp [calcDepEnds]
  · unfold depEndTime
    rw [hmiss]

/-- Claim C8 witness: the one-step state with dangling id 99. -/
theorem c8_witness :
    findById danglingState.steps 99 = none ∧
    calculateStartTime 1 danglingState 99 = some (0, danglingState) ∧
    depEndTime danglingState.steps 99 = 0 :=
  ⟨by decide,
   (c8_dangling danglingState.steps danglingState.calculated 99 1 (by decide) (by decide)).1,
   (c8_dangling danglingState.steps danglingState.calculated 99 1 (by decide) (by decide)).2.2⟩

/-- Claim C10: the summarizer returns 30 on the empty step list, and on a
nonempty list exactly the maximum step end time (an upper bound that is
attained); being a pure function of the list, it mutates nothing. -/
theorem c10_summarizer :
    calculateOptimizedTime [] = 30 ∧
    ∀ steps : List Step, steps ≠ [] →
      ((∀ s ∈ steps, s.startTime + s.duration ≤ calculateOptimizedTime steps) ∧
       ∃ s ∈ steps, calculateOptimizedTime steps = s.startTime + s.duration) := by
  constructor
  · rfl
  · intro steps hne
    cases steps with
    | nil => exact absurd rfl hne
    | cons x xs =>
      constructor
      · intro s hs
        show s.startTime + s.duration
          ≤ maxList ((x :: xs).map (fun t => t.startTime + t.duration))
        have hmm : s.startTime + s.duration
            ∈ (x :: xs).map (fun t => t.startTime + t.duration) :=
          List.mem_map_of_mem _ hs
        rw [List.map_cons] at hmm ⊢
        exact maxList_ge _ _ _ hmm
      · have hmem : calculateOptimizedTime (x :: xs)
            ∈ (x :: xs).map (fun t => t.startTime + t.duration) := by
          show maxList ((x :: xs).map (fun t => t.startTime + t.duration)) ∈ _
          rw [List.map_cons]
          exact maxList_mem _ _
        rcases List.mem_map.mp hmem with ⟨s, hs, heq⟩
        exact ⟨s, hs, heq.symm⟩

/-- Claim C10 witness: on a single step starting at 2 with duration 5 the
summarizer returns the attained bound 7. -/
theorem c10_witness :
    singleStepList ≠ [] ∧
    (∀ s ∈ singleStepList, s.startTime + s.duration ≤ calculateOptimizedTime singleStepList) ∧
    ∃ s ∈ singleStepList, calculateOptimizedTime singleStepList = s.startTime + s.duration :=
  ⟨by decide,
   (c10_summarizer.2 singleStepList (by decide)).1,
   (c10_summarizer.2 singleStepList (by decide)).2⟩

/-! ### Zeroed-invariant machinery for the resolver -/

theorem eraseStart_eq_self {s : Step} (h : s.startTime = 0) : eraseStart s = s := by
  cases s
  simp only [eraseStart]
  simp_all

theorem deps_eq_of_eraseStart {a b : Step} (h : eraseStart a = eraseStart b) :
    a.dependencies = b.dependencies := by
  have := congrArg Step.dependencies h
  simpa [eraseStart] using this

theorem id_eq_of_eraseStart {a b : Step} (h : eraseStart a = eraseStart b) :
    a.id = b.id := by
  have := congrArg Step.id h
  simpa [eraseStart] using this

theorem eq_map_eraseStart_of_all_zero :
    ∀ {l m : List Step}, l.map eraseStart = m.map eraseStart →
      (∀ s ∈ l, s.startTime = 0) → l = m.map eraseStart := by
  intro l
  induction l with
  | nil =>
    intro m h _
    exact h
  | cons x xs ih =>
    intro m h hz
    cases m with
    | nil => exact absurd h (by simp)
    | cons y ys =>
      simp only [List.map_cons, List.cons.injEq] at h
      have hx : x = eraseStart y := by
        rw [← h.1]
        exact (eraseStart_eq_self (hz x (List.mem_cons_self x xs))).symm
      have hxs : xs = ys.map eraseStart :=
        ih h.2 (fun s hs => hz s (List.mem_cons_of_mem x hs))
      rw [List.map_cons, ← hx, ← hxs]

theorem nodup_idsOf_cons {x : Step} {xs : List Step}
    (h : (idsOf (x :: xs)).Nodup) : x.id ∉ idsOf xs ∧ (idsOf xs).Nodup := by
  have : idsOf (x :: xs) = x.id :: idsOf xs := rfl
  rw [this] at h
  exact List.nodup_cons.mp h

theorem mem_setFirstStart_cases :
    ∀ {l : List Step}, (idsOf l).Nodup → ∀ (stepId t : Int) {s' : Step},
      s' ∈ setFirstStart l stepId t →
      (s' ∈ l ∧ s'.id ≠ stepId) ∨
        (∃ s ∈ l, s.id = stepId ∧ s' = { s with startTime := t }) := by
  intro l
  induction l with
  | nil => intro _ stepId t s' hs'; exact absurd hs' (List.not_mem_nil s')
  | cons x xs ih =>
    intro hnd stepId t s' hs'
    obtain ⟨hnotin, hndtail⟩ := nodup_idsOf_cons hnd
    by_cases hx : (x.id == stepId) = true
    · rw [show setFirstStart (x :: xs) stepId t
          = { x with startTime := t } :: xs from by simp [setFirstStart, hx]] at hs'
      rcases List.mem_cons.mp hs' with h1 | h1
      · exact Or.inr ⟨x, List.mem_cons_self x xs, by simpa using hx, h1⟩
      · left
        refine ⟨List.mem_cons_of_mem x h1, ?_⟩
        intro hid
        have hxid : x.id = stepId := by simpa using hx
        have : s'.id ∈ idsOf xs := List.mem_map_of_mem (fun s => s.id) h1
        rw [hid, ← hxid] at this
        exact hnotin this
    · rw [show setFirstStart (x :: xs) stepId t
          = x :: setFirstStart xs stepId t from by simp [setFirstStart, hx]] at hs'
      rcases List.mem_cons.mp hs' with h1 | h1
      · left
        refine ⟨h1 ▸ List.mem_cons_self x xs, ?_⟩
        rw [h1]
        simpa using hx
      · rcases ih hndtail stepId t h1 with ⟨hm, hne⟩ | ⟨s, hsm, hsid, hseq⟩
        · exact Or.inl ⟨List.mem_cons_of_mem x hm, hne⟩
        · exact Or.inr ⟨s, List.mem_cons_of_mem x hsm, hsid, hseq⟩

theorem canRunInParallel_false_of_noPar {base : List Step} (hnp : NoParById base)
    {l1 l2 : List Step} (h1 : l1.map eraseStart = base.map eraseStart)
    (h2 : l2.map eraseStart = base.map eraseStart)
    {a b : Step} (ha : a ∈ l1) (hb : b ∈ l2) (hab : a.id ≠ b.id) :
    canRunInParallel a b = false := by
  obtain ⟨a0, ha0, hea⟩ := mem_map_eraseStart h1 ha
  obtain ⟨b0, hb0, heb⟩ := mem_map_eraseStart h2 hb
  rw [canRunInParallel_congr hea heb]
  apply hnp a0 ha0 b0 hb0
  rw [← id_eq_of_eraseStart hea, ← id_eq_of_eraseStart heb]
  exact hab

theorem eraseStart_eq_across {base : List Step} (hnd : (idsOf base).Nodup)
    {l1 l2 : List Step} (h1 : l1.map eraseStart = base.map eraseStart)
    (h2 : l2.map eraseStart = base.map eraseStart)
    {a b : Step} (ha : a ∈ l1) (hb : b ∈ l2) (hid : a.id = b.id) :
    eraseStart a = eraseStart b := by
  obtain ⟨a0, ha0, hea⟩ := mem_map_eraseStart h1 ha
  obtain ⟨b0, hb0, heb⟩ := mem_map_eraseStart h2 hb
  have hab : a0 = b0 := by
    apply eq_of_mem_of_id_eq hnd ha0 hb0
    rw [← id_eq_of_eraseStart hea, ← id_eq_of_eraseStart heb]
    exact hid
  rw [hea, hab, ← heb]

theorem calcDepEnds_pres (P : SchedState → Prop)
    (f : SchedState → Int → Option (Int × SchedState))
    (Hf : ∀ st id r, f st id = some r → P st → P r.2) :
    ∀ (ds : List Int) (st : SchedState) (r : List Int × SchedState),
      calcDepEnds f st ds = some r → P st → P r.2 := by
  intro ds
  induction ds with
  | nil =>
    intro st r h hp
    simp only [calcDepEnds] at h
    injection h with h
    rw [← h]
    exact hp
  | cons d rest ih =>
    intro st r h hp
    simp only [calcDepEnds] at h
    cases hf : f st d with
    | none => rw [hf] at h; exact absurd h (by simp)
    | some p =>
      obtain ⟨v, st1⟩ := p
      rw [hf] at h
      dsimp only at h
      cases hrest : calcDepEnds f st1 rest with
      | none => rw [hrest] at h; exact absurd h (by simp)
      | some q =>
        obtain ⟨vs, st2⟩ := q
        rw [hrest] at h
        dsimp only at h
        injection h with h
        have hr : r.2 = st2 := by rw [← h]
        rw [hr]
        exact ih st1 (vs, st2) hrest (Hf st d (v, st1) hf hp)

theorem uncalc_le_length (steps : List Step) (cal : List Int) :
    uncalcCount ⟨steps, cal⟩ ≤ steps.length := by
  unfold uncalcCount
  calc ((idsOf steps).filter _).length ≤ (idsOf steps).length := List.length_filter_le _ _
    _ = steps.length := List.length_map _ _

theorem calculateStartTime_zeroInv (base : List Step) (hnd : (idsOf base).Nodup)
    (hnp : NoParById base) :
    ∀ (fuel : Nat) (st : SchedState) (stepId : Int) (r : Int × SchedState),
      calculateStartTime fuel st stepId = some r →
      ZeroedInv base st → ZeroedInv base r.2 := by
  intro fuel
  induction fuel with
  | zero => intro st stepId r h _; exact absurd h (by simp [calculateStartTime])
  | succ n ih =>
    intro st stepId r h hinv
    simp only [calculateStartTime] at h
    cases hf : findById st.steps stepId with
    | none => rw [hf] at h; injection h with h; rw [← h]; exact hinv
    | some step =>
      rw [hf] at h
      dsimp only at h
      by_cases hc : st.calculated.contains stepId = true
      · rw [if_pos hc] at h; injection h with h; rw [← h]; exact hinv
      · rw [if_neg hc] at h
        have hndst : (idsOf st.steps).Nodup := by
          rw [idsOf_eq_of_map_eraseStart hinv.1]; exact hnd
        have hsid : step.id = stepId := findById_id hf
        have hsmem : step ∈ st.steps := findById_mem hf
        by_cases hde : step.dependencies = []
        · rw [hde] at h
          rw [show calcDepEnds (calculateStartTime n)
              ⟨st.steps, stepId :: st.calculated⟩ ([] : List Int)
              = some ([], ⟨st.steps, stepId :: st.calculated⟩) from rfl] at h
          dsimp only at h
          have hcands : st.steps.filter
              (fun s => s.id != stepId && canRunInParallel step s) = [] := by
            apply List.filter_eq_nil_iff.mpr
            intro a ha
            by_cases haid : a.id = stepId
            · simp [haid]
            · have hpar : canRunInParallel step a = false :=
                canRunInParallel_false_of_noPar hnp hinv.1 hinv.1 hsmem ha
                  (by rw [hsid]; exact fun hh => haid hh.symm)
              simp [hpar]
          rw [hcands] at h
          simp only [List.isEmpty_nil, eq_self_iff_true, if_true] at h
          injection h with h
          rw [← h]
          constructor
          · show (setFirstStart st.steps stepId 0).map eraseStart = base.map eraseStart
            rw [setFirstStart_map_eraseStart]
            exact hinv.1
          · intro s' hs' hcon hdeps'
            rcases mem_setFirstStart_cases hndst stepId 0 hs'
              with ⟨hm, hne⟩ | ⟨s0, hm0, hid0, heq0⟩
            · apply hinv.2 s' hm ?_ hdeps'
              rw [List.contains_cons] at hcon
              have hfa : (s'.id == stepId) = false := by simpa using hne
              rw [hfa, Bool.false_or] at hcon
              exact hcon
            · rw [heq0]
        · have hinv1 : ZeroedInv base ⟨st.steps, stepId :: st.calculated⟩ := by
            refine ⟨hinv.1, ?_⟩
            intro s' hs' hcon hdeps'
            by_cases hsid' : s'.id = stepId
            · have heq : s' = step :=
                eq_of_mem_of_id_eq hndst hs' hsmem (by rw [hsid', hsid])
              rw [heq] at hdeps'
              exact absurd hdeps' hde
            · apply hinv.2 s' hs' ?_ hdeps'
              rw [List.contains_cons] at hcon
              have hfa : (s'.id == stepId) = false := by simpa using hsid'
              rw [hfa, Bool.false_or] at hcon
              exact hcon
          cases hd : calcDepEnds (calculateStartTime n)
              ⟨st.steps, stepId :: st.calculated⟩ step.dependencies with
          | none => rw [hd] at h; exact absurd h (by simp)
          | some q =>
            obtain ⟨ends, st2⟩ := q
            rw [hd] at h
            dsimp only at h
            injection h with h
            have hinv2 : ZeroedInv base st2 :=
              calcDepEnds_pres (ZeroedInv base) (calculateStartTime n)
                (fun st3 id3 r3 h3 hp3 => ih st3 id3 r3 h3 hp3)
                step.dependencies ⟨st.steps, stepId :: st.calculated⟩ (ends, st2) hd hinv1
            have hndst2 : (idsOf st2.steps).Nodup := by
              rw [idsOf_eq_of_map_eraseStart hinv2.1]; exact hnd
            rw [← h]
            constructor
            · show (setFirstStart st2.steps stepId _).map eraseStart = base.map eraseStart
              rw [setFirstStart_map_eraseStart]
              exact hinv2.1
            · intro s' hs' hcon hdeps'
              rcases mem_setFirstStart_cases hndst2 stepId _ hs'
                with ⟨hm, hne⟩ | ⟨s0, hm0, hid0, heq0⟩
              · exact hinv2.2 s' hm hcon hdeps'
              · exfalso
                have hera : eraseStart s0 = eraseStart step :=
                  eraseStart_eq_across hnd hinv2.1 hinv.1 hm0 hsmem (by rw [hid0, hsid])
                have hdeps0 : s0.dependencies = step.dependencies :=
                  deps_eq_of_eraseStart hera
                have hd' : s'.dependencies = s0.dependencies := by rw [heq0]
                rw [hd', hdeps0] at hdeps'
                exact hde hdeps'

theorem calc_marks (F : Nat) (st : SchedState) (stepId : Int) (r : Int × SchedState)
    (h : calculateStartTime F st stepId = some r)
    (hin : stepId ∈ idsOf st.steps) : r.2.calculated.contains stepId = true := by
  cases F with
  | zero => exact absurd h (by simp [calculateStartTime])
  | succ n =>
    simp only [calculateStartTime] at h
    cases hf : findById st.steps stepId with
    | none =>
      exfalso
      have hsome := findById_isSome_of_mem st.steps stepId hin
      rw [hf] at hsome
      exact absurd hsome (by simp)
    | some step =>
      rw [hf] at h
      dsimp only at h
      by_cases hc : st.calculated.contains stepId = true
      · rw [if_pos hc] at h; injection h with h; rw [← h]; exact hc
      · rw [if_neg hc] at h
        cases hd : calcDepEnds (calculateStartTime n)
            ⟨st.steps, stepId :: st.calculated⟩ step.dependencies with
        | none => rw [hd] at h; exact absurd h (by simp)
        | some q =>
          obtain ⟨ends, st2⟩ := q
          rw [hd] at h
          dsimp only at h
          injection h with h
          have hshape := calcDepEnds_shape (calculateStartTime n)
            (fun a b c hh => calculateStartTime_shape n a b c hh)
            step.dependencies ⟨st.steps, stepId :: st.calculated⟩ (ends, st2) hd
          have hcon1 : ((stepId :: st.calculated).contains stepId) = true := by simp
          have hcon2 := hshape.2 stepId hcon1
          rw [← h]
          exact hcon2

theorem foldCalc_zeroInv (base : List Step) (hnd : (idsOf base).Nodup)
    (hnp : NoParById base) (F : Nat) :
    ∀ (l : List Step) (st : SchedState), ZeroedInv base st →
      ZeroedInv base (l.foldl
        (fun st s => ((calculateStartTime F st s.id).getD (0, st)).2) st) := by
  intro l
  induction l with
  | nil => intro st h; exact h
  | cons x xs ih =>
    intro st h
    show ZeroedInv base (xs.foldl _ (((calculateStartTime F st x.id).getD (0, st)).2))
    apply ih
    cases hr : calculateStartTime F st x.id with
    | none => exact h
    | some r => exact calculateStartTime_zeroInv base hnd hnp F st x.id r hr h

theorem foldCalc_covers (F : Nat) :
    ∀ (l : List Step) (st : SchedState), uncalcCount st < F →
      (∀ s ∈ l, s.id ∈ idsOf st.steps) →
      ∀ s ∈ l, (l.foldl
        (fun st s => ((calculateStartTime F st s.id).getD (0, st)).2)
          st).calculated.contains s.id = true := by
  intro l
  induction l with
  | nil => intro st _ _ s hs; exact absurd hs (List.not_mem_nil s)
  | cons x xs ih =>
    intro st hun hids s hs
    have hsome := calculateStartTime_isSome F st x.id hun
    cases hr : calculateStartTime F st x.id with
    | none => rw [hr] at hsome; exact absurd hsome (by simp)
    | some r =>
      have hshape := calculateStartTime_shape F st x.id r hr
      have hun2 : uncalcCount r.2 ≤ uncalcCount st :=
        uncalc_mono_of st r.2 (idsOf_eq_of_map_eraseStart hshape.1) hshape.2
      have hids2 : idsOf r.2.steps = idsOf st.steps := idsOf_eq_of_map_eraseStart hshape.1
      show ((xs.foldl _ (((calculateStartTime F st x.id).getD (0, st)).2)) :
          SchedState).calculated.contains s.id = true
      rw [hr]
      rcases List.mem_cons.mp hs with h1 | h1
      · subst h1
        have hmark := calc_marks F st s.id r hr (hids s (List.mem_cons_self s xs))
        exact (foldCalc_shape F xs r.2).2 s.id hmark
      · apply ih r.2 (by omega) ?_ s h1
        intro t ht
        rw [hids2]
        exact hids t (List.mem_cons_of_mem x ht)

theorem optimizeSteps_depFree_zero (l : List Step) (hnd : (idsOf l).Nodup)
    (hnp : NoParById l) :
    ∀ s ∈ optimizeSteps l, s.dependencies = [] → s.startTime = 0 := by
  intro s hs hdeps
  by_cases hemp : l.isEmpty
  · have heq : optimizeSteps l = l := by unfold optimizeSteps; rw [if_pos hemp]
    rw [heq, List.isEmpty_iff.mp hemp] at hs
    exact absurd hs (List.not_mem_nil s)
  · have hopt : optimizeSteps l = (l.foldl
        (fun st s => ((calculateStartTime (l.length + 1) st s.id).getD (0, st)).2)
        ⟨l, []⟩).steps := by
      unfold optimizeSteps; rw [if_neg hemp]
    set G := l.foldl
      (fun st s => ((calculateStartTime (l.length + 1) st s.id).getD (0, st)).2)
      (⟨l, []⟩ : SchedState) with hG
    have hinv0 : ZeroedInv l ⟨l, []⟩ := by
      refine ⟨rfl, ?_⟩
      intro s' _ hcon _
      exact absurd hcon (by simp)
    have hinvG : ZeroedInv l G := foldCalc_zeroInv l hnd hnp (l.length + 1) l ⟨l, []⟩ hinv0
    have hcov : ∀ t ∈ l, G.calculated.contains t.id = true := by
      apply foldCalc_covers (l.length + 1) l ⟨l, []⟩ ?_ ?_
      · have := uncalc_le_length l []
        omega
      · intro t ht
        exact List.mem_map_of_mem (fun s => s.id) ht
    rw [hopt] at hs
    obtain ⟨s0, hs0, hera⟩ := mem_map_eraseStart hinvG.1 hs
    have hid : s.id = s0.id := id_eq_of_eraseStart hera
    have hcon : G.calculated.contains s.id = true := by rw [hid]; exact hcov s0 hs0
    exact hinvG.2 s hs hcon hdeps

theorem optimizeSteps_eq_eraseStart (l : List Step) (hnd : (idsOf l).Nodup)
    (hnp : NoParById l) (hdf : ∀ s ∈ l, s.dependencies = []) :
    optimizeSteps l = l.map eraseStart := by
  apply eq_map_eraseStart_of_all_zero (optimizeSteps_map_eraseStart l)
  intro s hs
  apply optimizeSteps_depFree_zero l hnd hnp s hs
  obtain ⟨s0, hs0, hera⟩ := mem_map_eraseStart (optimizeSteps_map_eraseStart l) hs
  rw [deps_eq_of_eraseStart hera]
  exact hdf s0 hs0

/-- Claim C3 counterexample: in `labelPairSteps` the first step has no
dependencies yet `optimizeSteps` assigns it startTime 7, not 0 — the
parallel-candidate heuristic raises it to the other dish's input start
time, so the resolver is not precedence-only. -/
theorem c3_counterexample :
    (stepAt (optimizeSteps labelPairSteps) 0).dependencies = [] ∧
    (stepAt (optimizeSteps labelPairSteps) 0).startTime = 7 := by
  decide

/-- Claim C3 (amended): the precedence-only contract holds when the
parallel-candidate heuristic cannot fire: on a step list with pairwise
distinct ids in which no two distinct steps are classified
parallel-compatible, every dependency-free step is assigned startTime 0.
In general the resolver also raises start times to the largest current
startTime among parallel-compatible steps, so assigned values can depend
on canParallel and dishLabel. -/
theorem c3_amended (steps : List Step) (hnd : (idsOf steps).Nodup)
    (hnp : NoParById steps) :
    ∀ s ∈ optimizeSteps steps, s.dependencies = [] → s.startTime = 0 :=
  optimizeSteps_depFree_zero steps hnd hnp

/-- Claim C3 witness: on `depFreePairSteps` (never-parallel, distinct ids)
the dependency-free first step is assigned 0 despite input start 3. -/
theorem c3_witness :
    ((idsOf depFreePairSteps).Nodup ∧ NoParById depFreePairSteps) ∧
    (stepAt (optimizeSteps depFreePairSteps) 0).startTime = 0 :=
  ⟨⟨by decide, by decide⟩,
   c3_amended depFreePairSteps (by decide) (by decide)
     (stepAt (optimizeSteps depFreePairSteps) 0) (by decide) (by decide)⟩

/-- Claim C7 counterexample: `shiftInputA` and `shiftInputB` agree on every
field except startTime, yet the full scheduler emits different schedules
(step 1 at 0 vs 5) and different optimizedTime (5 vs 6) — input startTime
values leak through the parallel-candidate heuristic. -/
theorem c7_counterexample :
    shiftInputA.map eraseStart = shiftInputB.map eraseStart ∧
    scheduleSteps shiftInputA ≠ scheduleSteps shiftInputB ∧
    calculateOptimizedTime (scheduleSteps shiftInputA)
      ≠ calculateOptimizedTime (scheduleSteps shiftInputB) := by
  decide

/-- Claim C7 (amended): input startTime values cannot influence the output
when the leak path is closed: for inputs with distinct ids, no
parallel-compatible pair and no dependencies, two step lists identical
except startTime produce identical schedules and identical optimizedTime.
In general the parallel-candidate heuristic makes the output depend on
input startTime values. -/
theorem c7_amended (l1 l2 : List Step)
    (hsame : l1.map eraseStart = l2.map eraseStart)
    (hnd : (idsOf l1).Nodup) (hnp : NoParById l1)
    (hdf : ∀ s ∈ l1, s.dependencies = []) :
    scheduleSteps l1 = scheduleSteps l2 ∧
    calculateOptimizedTime (scheduleSteps l1)
      = calculateOptimizedTime (scheduleSteps l2) := by
  have hnd2 : (idsOf l2).Nodup := by
    rw [← idsOf_eq_of_map_eraseStart hsame]
    exact hnd
  have hnp2 : NoParById l2 := noParById_of_map_eraseStart hsame.symm hnp
  have hdf2 : ∀ s ∈ l2, s.dependencies = [] := by
    intro s hs
    obtain ⟨s0, hs0, hera⟩ := mem_map_eraseStart hsame.symm hs
    rw [deps_eq_of_eraseStart hera]
    exact hdf s0 hs0
  have he1 : optimizeSteps l1 = l1.map eraseStart :=
    optimizeSteps_eq_eraseStart l1 hnd hnp hdf
  have he2 : optimizeSteps l2 = l2.map eraseStart :=
    optimizeSteps_eq_eraseStart l2 hnd2 hnp2 hdf2
  have heq : scheduleSteps l1 = scheduleSteps l2 := by
    unfold scheduleSteps
    rw [he1, he2, hsame]
  exact ⟨heq, by rw [heq]⟩

/-- Claim C7 witness: `allFreeInputA` and `allFreeInputB` differ only in
startTime and satisfy the closed-leak conditions; their schedules agree. -/
theorem c7_witness :
    (allFreeInputA.map eraseStart = allFreeInputB.map eraseStart ∧
     (idsOf allFreeInputA).Nodup ∧ NoParById allFreeInputA ∧
     (∀ s ∈ allFreeInputA, s.dependencies = [])) ∧
    scheduleSteps allFreeInputA = scheduleSteps allFreeInputB :=
  ⟨⟨by decide, by decide, by decide, by decide⟩,
   (c7_amended allFreeInputA allFreeInputB (by decide) (by decide) (by decide)
     (by decide)).1⟩
